import Mathlib

/-!
Shallow embedding of the bubble-based OMR answer-extraction pipeline
implemented by analyzeOmrImage in src/omr/omrProcessor.ts (the file surfaced
through src/components/UploadInterface.tsx).  JavaScript numbers are modelled
as rationals; the OpenCV primitives (contour measurement, circular-mask fill
sampling, grayscale conversion, CLAHE) are modelled as explicit deterministic
inputs, and the logic layered on top of them is translated directly from the
source.
-/

namespace OMR

/-- Exact rational value of the IEEE-754 double Math.PI used by the source. -/
def jsPI : ℚ := 884279719003555 / 281474976710656

/-- The Bubble record of the source: geometry from minEnclosingCircle, the
index of the originating contour, and the optional classification fields
filledRatio and isFilled, absent until the fill-classification stage runs. -/
structure Bubble where
  x : ℚ
  y : ℚ
  r : ℚ
  contourIndex : ℤ
  filledRatio : Option ℚ
  isFilled : Option Bool
deriving DecidableEq

/-- The analysis options after the defaults spread at the top of
analyzeOmrImage: minBubbleArea 150, maxBubbleArea 20000, fillThreshold 0.35,
expectedOptions undefined. -/
structure Config where
  minBubbleArea : ℚ
  maxBubbleArea : ℚ
  fillThreshold : ℚ
  expectedOptions : Option ℕ
deriving DecidableEq

/-- The default options object of the source. -/
def defaultConfig : Config := ⟨150, 20000, 35/100, none⟩

/-- Measurements OpenCV yields for one external contour: contourArea,
arcLength, and the minimal enclosing circle (center and radius). -/
structure Contour where
  area : ℚ
  perim : ℚ
  cx : ℚ
  cy : ℚ
  radius : ℚ
deriving DecidableEq

/-- circularity = 4 pi area / perim^2 when perim > 0, else 0 (source line
661). -/
def circularity (c : Contour) : ℚ :=
  if 0 < c.perim then 4 * jsPI * c.area / (c.perim * c.perim) else 0

/-- First-pass acceptance: area within [minBubbleArea, maxBubbleArea] and
circularity at least 0.35 (the two continue-guards of the first contour
loop). -/
abbrev acceptFirst (cfg : Config) (c : Contour) : Prop :=
  cfg.minBubbleArea ≤ c.area ∧ c.area ≤ cfg.maxBubbleArea ∧
    35/100 ≤ circularity c

/-- Relaxed-pass acceptance: area within [0.6 minBubbleArea,
2 maxBubbleArea] and circularity at least 0.28 (the guards of the retry
loop). -/
abbrev acceptRelaxed (cfg : Config) (c : Contour) : Prop :=
  cfg.minBubbleArea * (6/10) ≤ c.area ∧ c.area ≤ cfg.maxBubbleArea * 2 ∧
    28/100 ≤ circularity c

/-- Bubble built from an accepted contour: minimal-enclosing-circle geometry
plus the loop index, with no classification yet. -/
def toBubble (i : ℕ) (c : Contour) : Bubble :=
  ⟨c.cx, c.cy, c.radius, (i : ℤ), none, none⟩

/-- First extraction pass: filter the indexed contours by the first-pass
guards and record their enclosing circles. -/
def firstPass (cfg : Config) (contours : List Contour) : List Bubble :=
  (contours.enum.filter fun p => decide (acceptFirst cfg p.2)).map
    fun p => toBubble p.1 p.2

/-- Squared euclidean distance between two centers. -/
def distSq (x1 y1 x2 y2 : ℚ) : ℚ := (x1 - x2)^2 + (y1 - y2)^2

/-- The duplicate test of the relaxed pass: Math.hypot(b.x - cx, b.y - cy)
< max(5, radius * 0.6), stated equivalently on squared distances since both
sides are nonnegative. -/
abbrev isNearby (b : Bubble) (cx cy radius : ℚ) : Prop :=
  distSq b.x b.y cx cy < (max 5 (radius * (6/10)))^2

/-- One iteration of the relaxed retry loop: accept the contour only if it
meets the relaxed guards and no already-accepted bubble is nearby. -/
def relaxedStep (cfg : Config) (acc : List Bubble) (p : ℕ × Contour) :
    List Bubble :=
  if acceptRelaxed cfg p.2 then
    if ∃ b ∈ acc, isNearby b p.2.cx p.2.cy p.2.radius then acc
    else acc ++ [toBubble p.1 p.2]
  else acc

/-- Candidate extraction with the bounded retry: run the first pass, and when
it accepted fewer than 10 bubbles run the relaxed pass once over the same
contours, deduplicating by center distance. -/
def extractBubbles (cfg : Config) (contours : List Contour) : List Bubble :=
  let first := firstPass cfg contours
  if first.length < 10 then contours.enum.foldl (relaxedStep cfg) first
  else first

/-- Fill classification of one bubble from the mask counts supplied by the
primitives: measure gives (pixels inside the sampling circle, pixels Otsu
classifies white); filledRatio = dark / total when total > 0, else 0, and
isFilled compares it with the fill threshold. -/
def classifyBubble (measure : ℚ → ℚ → ℚ → ℕ × ℕ) (thr : ℚ) (b : Bubble) :
    Bubble :=
  let counts := measure b.x b.y b.r
  let filledRatio : ℚ :=
    if 0 < counts.1 then ((counts.1 : ℚ) - (counts.2 : ℚ)) / (counts.1 : ℚ)
    else 0
  ⟨b.x, b.y, b.r, b.contourIndex, some filledRatio,
    some (decide (thr ≤ filledRatio))⟩

/-- Stable sort by ascending y then ascending x, the comparator
a.y - b.y || a.x - b.x of the source; insertion sort with a reflexive total
preorder is extensionally the stable JavaScript sort. -/
def sortByYX (bs : List Bubble) : List Bubble :=
  bs.insertionSort fun a b => a.y < b.y ∨ (a.y = b.y ∧ a.x ≤ b.x)

/-- Stable sort of a row by ascending x, the comparator a.x - b.x. -/
def sortByX (row : List Bubble) : List Bubble :=
  row.insertionSort fun a b => a.x ≤ b.x

/-- Resolution-adaptive row tolerance max(8, Math.round(height / 200)). -/
def rowTolerance (height : ℕ) : ℚ :=
  max 8 ((round ((height : ℚ) / 200) : ℤ) : ℚ)

/-- Mean y of the members of a row. -/
def avgY (row : List Bubble) : ℚ :=
  (row.map Bubble.y).sum / (row.length : ℚ)

/-- One step of the row-clustering scan: an empty row list starts the first
row; otherwise the bubble joins the last row when its y is within the
tolerance of the running mean y of that row, and starts a new row
otherwise. -/
def addToRows (tol : ℚ) (rows : List (List Bubble)) (b : Bubble) :
    List (List Bubble) :=
  if rows = [] then [[b]]
  else
    let lastRow := rows.getLastD []
    if |b.y - avgY lastRow| ≤ tol then rows.dropLast ++ [lastRow ++ [b]]
    else rows ++ [[b]]

/-- Single forward scan grouping the (pre-sorted) bubbles into rows. -/
def clusterRows (tol : ℚ) (bs : List Bubble) : List (List Bubble) :=
  bs.foldl (addToRows tol) []

/-- Group index Math.floor((i * expectedOptions) / rowLength) used by the
positional merge. -/
def groupIdx (i e n : ℕ) : ℕ := i * e / n

/-- The expectedOptions contiguous index-ordered groups of a row: member i
goes to group groupIdx i e n. -/
def mergeGroups (e : ℕ) (row : List Bubble) : List (List Bubble) :=
  (List.range e).map fun g =>
    (row.enum.filter fun p => groupIdx p.1 e row.length == g).map Prod.snd

/-- Average of one group: componentwise mean of x, y, r and filledRatio
(missing ratios counting as 0), contourIndex -1, isFilled recomputed from the
averaged ratio. -/
def averageGroup (thr : ℚ) (g : List Bubble) : Bubble :=
  let n : ℚ := (g.length : ℚ)
  let fr : ℚ := (g.map fun b => (Bubble.filledRatio b).getD 0).sum / n
  ⟨(g.map Bubble.x).sum / n, (g.map Bubble.y).sum / n,
    (g.map Bubble.r).sum / n, -1, some fr, some (decide (thr ≤ fr))⟩

/-- Positional merge of a row down to e options. -/
def mergeRow (thr : ℚ) (e : ℕ) (row : List Bubble) : List Bubble :=
  (mergeGroups e row).map (averageGroup thr)

/-- The per-row option list: the x-sorted row itself, unless expectedOptions
is set (and nonzero, matching JavaScript truthiness) and the row has strictly
more members, in which case the positional merge applies. -/
def optionsInRow (cfg : Config) (row : List Bubble) : List Bubble :=
  match cfg.expectedOptions with
  | none => row
  | some e => if e ≠ 0 ∧ e < row.length then mergeRow cfg.fillThreshold e row
              else row

/-- One iteration of the argmax loop of the source, carrying (maxIdx,
maxScore) with sentinel start (-1, -1) and updating on strictly greater
scores only, so the first maximum wins. -/
def argmaxStep (acc : ℤ × ℚ) (p : ℕ × ℚ) : ℤ × ℚ :=
  if acc.2 < p.2 then ((p.1 : ℤ), p.2) else acc

/-- The argmax loop over the indexed scores. -/
def argmaxLoop (scores : List ℚ) : ℤ × ℚ :=
  scores.enum.foldl argmaxStep (-1, -1)

/-- A QuestionResult: 1-based row index, selected option (null when the
maximum score is below the fill threshold), per-option scores. -/
structure Question where
  index : ℕ
  selected : Option ℤ
  scores : List ℚ
deriving DecidableEq

/-- Answer selection for one row: sort by x, optionally merge to the expected
option count, read the scores off the (merged or raw) fill ratios, and select
the argmax only when the maximum score reaches the fill threshold. -/
def processRow (cfg : Config) (qi : ℕ) (row : List Bubble) : Question :=
  let sorted := sortByX row
  let optRow := optionsInRow cfg sorted
  let scores := optRow.map fun b => (Bubble.filledRatio b).getD 0
  let am := argmaxLoop scores
  ⟨qi + 1, if cfg.fillThreshold ≤ am.2 then some am.1 else none, scores⟩

/-- One QuestionResult per clustered row, indexed top to bottom. -/
def buildQuestions (cfg : Config) (rows : List (List Bubble)) :
    List Question :=
  rows.enum.map fun p => processRow cfg p.1 p.2

/-- The full analysis result: the questions and the classified (and y-then-x
sorted, since the source sorts the array in place) bubbles. -/
structure AnalyzeResult where
  questions : List Question
  bubbles : List Bubble
deriving DecidableEq

/-- The deterministic image-processing primitives the pipeline calls out to:
grayscale conversion, the optional CLAHE enhancement (none models both an
unavailable constructor and a thrown error), the pixel height of the image,
the contour extraction composite (Gaussian blur, adaptive threshold,
morphological closing, findContours with measurements), and the per-circle
fill sampling (total pixels inside the sampling circle, pixels classified
white by Otsu) on the blurred grayscale. -/
structure Primitives (Img Gray : Type) where
  grayscale : Img → Gray
  clahe : Gray → Option Gray
  height : Img → ℕ
  contoursOf : Gray → List Contour
  fillMeasure : Gray → ℚ → ℚ → ℚ → ℕ × ℕ

/-- The grayscale image the pipeline actually continues with: the CLAHE
output when the enhancement succeeds, the unenhanced grayscale otherwise. -/
def usedGray {Img Gray : Type} (P : Primitives Img Gray) (img : Img) : Gray :=
  match P.clahe (P.grayscale img) with
  | some g => g
  | none => P.grayscale img

/-- The pipeline downstream of grayscale production: extraction with retry,
fill classification, the in-place sort, row clustering, and answer
selection. -/
def analyzeFromGray {Img Gray : Type} (P : Primitives Img Gray) (h : ℕ)
    (g : Gray) (cfg : Config) : AnalyzeResult :=
  let bubbles := extractBubbles cfg (P.contoursOf g)
  let filledBubbles :=
    bubbles.map (classifyBubble (P.fillMeasure g) cfg.fillThreshold)
  let sorted := sortByYX filledBubbles
  let rows := clusterRows (rowTolerance h) sorted
  ⟨buildQuestions cfg rows, sorted⟩

/-- Entry point analyzeOmrImage, modelled over the primitives record. -/
def analyze {Img Gray : Type} (P : Primitives Img Gray) (img : Img)
    (cfg : Config) : AnalyzeResult :=
  analyzeFromGray P (P.height img) (usedGray P img) cfg

/-- Config with only the fill threshold replaced. -/
def setThreshold (cfg : Config) (t : ℚ) : Config :=
  ⟨cfg.minBubbleArea, cfg.maxBubbleArea, t, cfg.expectedOptions⟩

/-! Concrete bubbles for the row-tolerance scenario of the specification. -/

/-- Bubble at y = 100. -/
def b100 : Bubble := ⟨0, 100, 10, 0, none, none⟩

/-- Bubble at y = 109. -/
def b109 : Bubble := ⟨0, 109, 10, 1, none, none⟩

/-- Bubble at y = 111. -/
def b111 : Bubble := ⟨0, 111, 10, 2, none, none⟩

/-- C2 counterexample: on an image of height 2000 the tolerance is 10 and the
bubbles at y = 100 and y = 109 do land in one row, but the bubble at y = 111,
scanned next, does NOT start a new row as the claim states: the running mean
of the row is 104.5 and |111 - 104.5| = 6.5 <= 10, so it joins the same row
and the clustering returns a single row of three, not two rows. -/
theorem C2_counterexample :
    rowTolerance 2000 = 10 ∧
    clusterRows (rowTolerance 2000) [b100, b109, b111] =
      [[b100, b109, b111]] ∧
    clusterRows (rowTolerance 2000) [b100, b109, b111] ≠
      [[b100, b109], [b111]] := by
  refine ⟨by norm_num [rowTolerance], ?_, ?_⟩ <;>
    norm_num [clusterRows, addToRows, avgY, rowTolerance, b100, b109, b111,
      abs_le]

/-- C2 amended: on an image of height 2000 (tolerance max(8, 10) = 10),
bubbles at y = 100 and y = 109 land in the same row, and the bubble at
y = 111 (scanned next, in y-sorted order) also joins that same row, because
the running mean of the row is then 104.5 and |111 - 104.5| = 6.5 is within
the tolerance. -/
theorem C2_rowTolerance_scenario :
    rowTolerance 2000 = 10 ∧
    avgY [b100, b109] = 209/2 ∧
    |b111.y - avgY [b100, b109]| ≤ rowTolerance 2000 ∧
    clusterRows (rowTolerance 2000) [b100, b109, b111] =
      [[b100, b109, b111]] := by
  refine ⟨by norm_num [rowTolerance], by norm_num [avgY, b100, b109],
    by norm_num [avgY, rowTolerance, b100, b109, b111, abs_le], ?_⟩
  norm_num [clusterRows, addToRows, avgY, rowTolerance, b100, b109, b111,
    abs_le]

/-! Concrete primitives describing a sheet with one row of three circular
marks, used to exercise the whole pipeline on explicit inputs. -/

/-- A clean circular contour (area 200, perimeter 50, circularity about 1.0)
centered at (x, 50) with radius 10. -/
def roundContour (x : ℚ) : Contour := ⟨200, 50, x, 50, 10⟩

/-- Primitives for a 1000-pixel-high image whose contour extraction finds
three circular marks in one horizontal band, every fill sample counting 100
pixels of which 20 are white (fill ratio 0.8). -/
def threeBubblePrims : Primitives Unit Unit :=
  ⟨fun _ => (), fun _ => some (), fun _ => 1000,
   fun _ => [roundContour 100, roundContour 200, roundContour 300],
   fun _ _ _ _ => (100, 20)⟩

/-- Options requesting four options per question. -/
def fourOptionConfig : Config := ⟨150, 20000, 35/100, some 4⟩

/-- C3 counterexample: with expectedOptions = 4 supplied, a detected row of
three bubbles yields a QuestionResult whose scoresPerOption has length 3, not
4: the positional merge only shrinks rows with MORE members than
expectedOptions and never pads shorter rows, so callers cannot assume a
uniform option count even when they pass expectedOptions. -/
theorem C3_counterexample :
    fourOptionConfig.expectedOptions = some 4 ∧
    (analyze threeBubblePrims () fourOptionConfig).questions.map
        (fun q => q.scores.length) = [3] := by
  constructor
  · rfl
  · norm_num [analyze, analyzeFromGray, usedGray, extractBubbles, firstPass,
      relaxedStep, acceptFirst, acceptRelaxed, circularity, jsPI, isNearby,
      distSq, toBubble, classifyBubble, sortByYX, sortByX, rowTolerance,
      clusterRows, addToRows, avgY, buildQuestions, processRow, optionsInRow,
      mergeGroups, mergeRow, averageGroup, groupIdx, argmaxLoop, argmaxStep,
      threeBubblePrims, roundContour, fourOptionConfig, abs_le,
      List.insertionSort, List.enum, List.enumFrom, List.filter]

/-- C3 amended: when expectedOptions = e >= 1 is supplied, a row processed by
answer selection yields exactly min(rowLength, e) scores: rows with more
members than e are merged down to exactly e scores (so five bubbles with
e = 4 yield four scores), while rows with at most e members keep their own
count; consequently every QuestionResult of an analysis run with
expectedOptions = e has at most e scores, but uniformity holds only for rows
with at least e members. -/
theorem C3_merge_length :
    (∀ (cfg : Config) (e qi : ℕ) (row : List Bubble),
      cfg.expectedOptions = some e → e ≠ 0 →
      (processRow cfg qi row).scores.length = min row.length e) ∧
    (∀ (Img Gray : Type) (P : Primitives Img Gray) (img : Img)
      (cfg : Config) (e : ℕ), cfg.expectedOptions = some e → e ≠ 0 →
      ∀ q ∈ (analyze P img cfg).questions, q.scores.length ≤ e) := by
  have key : ∀ (cfg : Config) (e qi : ℕ) (row : List Bubble),
      cfg.expectedOptions = some e → e ≠ 0 →
      (processRow cfg qi row).scores.length = min row.length e := by
    intro cfg e qi row he he0
    have hlen : (sortByX row).length = row.length :=
      List.length_insertionSort _ _
    simp only [processRow, optionsInRow, he, List.length_map]
    by_cases h : e < (sortByX row).length
    · rw [if_pos ⟨he0, h⟩]
      rw [hlen] at h
      simp only [mergeRow, mergeGroups, List.length_map, List.length_range]
      omega
    · rw [if_neg (by tauto)]
      rw [hlen] at h ⊢
      omega
  refine ⟨key, ?_⟩
  intro Img Gray P img cfg e he he0 q hq
  simp only [analyze, analyzeFromGray, buildQuestions, List.mem_map] at hq
  obtain ⟨p, _, hp⟩ := hq
  rw [← hp, key cfg e p.1 p.2 he he0]
  omega

/-- C3 amended claim instantiated: the three-bubble row processed with
expectedOptions = 4 yields min(3, 4) = 3 scores. -/
theorem C3_merge_length_witness :
    fourOptionConfig.expectedOptions = some 4 ∧ (4 : ℕ) ≠ 0 ∧
    (processRow fourOptionConfig 0 [b100, b109, b111]).scores.length =
      min 3 4 := by
  refine ⟨rfl, by norm_num, ?_⟩
  have h := C3_merge_length.1 fourOptionConfig 4 0 [b100, b109, b111] rfl
    (by norm_num)
  simpa using h

/-- Helper: the second component of an indexed-list member is a member of
the underlying list. -/
theorem snd_mem_of_mem_enum {α : Type} {p : ℕ × α} {l : List α}
    (h : p ∈ l.enum) : p.2 ∈ l :=
  List.getElem?_mem (List.mem_enum_iff_getElem?.mp h)

/-- Characterization of the argmax fold: either no entry strictly beats the
accumulator and the fold returns the accumulator unchanged, or it returns the
positionally first entry attaining the maximum, which strictly beats the
accumulator, dominates every entry, and strictly dominates every earlier
entry. -/
theorem argmaxGo_char (l : List (ℕ × ℚ)) : ∀ acc : ℤ × ℚ,
    (l.foldl argmaxStep acc = acc ∧ ∀ p ∈ l, p.2 ≤ acc.2) ∨
    ∃ k, ∃ hk : k < l.length,
      l.foldl argmaxStep acc = ((l[k].1 : ℤ), l[k].2) ∧
      acc.2 < l[k].2 ∧ (∀ p ∈ l, p.2 ≤ l[k].2) ∧
      ∀ m (hm : m < k), l[m].2 < l[k].2 := by
  induction l with
  | nil => intro acc; exact Or.inl ⟨rfl, by simp⟩
  | cons a t ih =>
    intro acc
    rw [List.foldl_cons]
    rcases ih (argmaxStep acc a) with ⟨heq, hle⟩ |
      ⟨k, hk, heq, hgt, hub, hbef⟩
    · by_cases h : acc.2 < a.2
      · right
        refine ⟨0, by simp, ?_, by simpa using h, ?_, by omega⟩
        · rw [heq]; simp [argmaxStep, h]
        · intro p hp
          rcases List.mem_cons.mp hp with rfl | hp
          · simp
          · have := hle p hp
            simp only [argmaxStep, if_pos h] at this
            simpa using this
      · left
        refine ⟨?_, ?_⟩
        · rw [heq]; simp [argmaxStep, h]
        · intro p hp
          rcases List.mem_cons.mp hp with rfl | hp
          · exact not_lt.mp h
          · have := hle p hp
            simp only [argmaxStep, if_neg h] at this
            exact this
    · have hboth : acc.2 < t[k].2 ∧ a.2 < t[k].2 := by
        by_cases h : acc.2 < a.2
        · simp only [argmaxStep, if_pos h] at hgt
          exact ⟨h.trans hgt, hgt⟩
        · simp only [argmaxStep, if_neg h] at hgt
          exact ⟨hgt, lt_of_le_of_lt (not_lt.mp h) hgt⟩
      right
      refine ⟨k + 1, by simpa using hk, ?_, ?_, ?_, ?_⟩
      · simpa using heq
      · simpa using hboth.1
      · intro p hp
        rcases List.mem_cons.mp hp with rfl | hp
        · simpa using hboth.2.le
        · simpa using hub p hp
      · intro m hm
        match m, hm with
        | 0, _ => simpa using hboth.2
        | m + 1, hm => simpa using hbef m (by omega)

/-- Characterization of the argmax loop on nonnegative scores: on the empty
list it returns the sentinel pair, and otherwise it returns the first index
attaining the maximum score together with that score. -/
theorem argmaxLoop_char (s : List ℚ) (hnn : ∀ x ∈ s, 0 ≤ x) :
    (s = [] ∧ argmaxLoop s = (-1, -1)) ∨
    ∃ k, ∃ hk : k < s.length,
      argmaxLoop s = ((k : ℤ), s[k]) ∧
      (∀ x ∈ s, x ≤ s[k]) ∧
      ∀ m (hm : m < k), s[m] < s[k] := by
  rcases argmaxGo_char s.enum (-1, -1) with ⟨heq, hle⟩ |
    ⟨k, hk, heq, _, hub, hbef⟩
  · cases s with
    | nil => exact Or.inl ⟨rfl, heq⟩
    | cons a t =>
      exfalso
      have hmem : ((0 : ℕ), a) ∈ (a :: t).enum :=
        List.mem_enum_iff_getElem?.mpr (by simp)
      have h1 := hle _ hmem
      have ha : (0 : ℚ) ≤ a := hnn a (by simp)
      simp only at h1
      linarith
  · have hk' : k < s.length := by simpa [List.enum_length] using hk
    right
    refine ⟨k, hk', ?_, ?_, ?_⟩
    · rw [argmaxLoop, heq, List.getElem_enum]
    · intro x hx
      obtain ⟨i, hi, hget⟩ := List.mem_iff_getElem.mp hx
      have hmem : ((i : ℕ), x) ∈ s.enum := by
        rw [← hget, ← List.getElem_enum]
        exact List.getElem_mem (by simpa [List.enum_length] using hi)
      have := hub _ hmem
      simpa [List.getElem_enum] using this
    · intro m hm
      have := hbef m hm
      simpa [List.getElem_enum] using this

/-- Members of a merge group are members of the row being merged. -/
theorem mem_of_mem_mergeGroups {e : ℕ} {row : List Bubble}
    {g : List Bubble} (hg : g ∈ mergeGroups e row) {b : Bubble}
    (hb : b ∈ g) : b ∈ row := by
  simp only [mergeGroups, List.mem_map, List.mem_range] at hg
  obtain ⟨gi, _, rfl⟩ := hg
  simp only [List.mem_map, List.mem_filter] at hb
  obtain ⟨p, ⟨hp, _⟩, rfl⟩ := hb
  exact snd_mem_of_mem_enum hp

/-- Answer selection on a row of nonnegative fill ratios produces
nonnegative scores, merged or not. -/
theorem scores_nonneg (cfg : Config) (qi : ℕ) (row : List Bubble)
    (h : ∀ b ∈ row, 0 ≤ (Bubble.filledRatio b).getD 0) :
    ∀ x ∈ (processRow cfg qi row).scores, 0 ≤ x := by
  have hsorted : ∀ b ∈ sortByX row, 0 ≤ (Bubble.filledRatio b).getD 0 := by
    intro b hb
    exact h b (by simpa [sortByX, List.mem_insertionSort] using hb)
  intro x hx
  simp only [processRow, List.mem_map] at hx
  obtain ⟨b, hb, rfl⟩ := hx
  rcases hopt : cfg.expectedOptions with _ | e
  · rw [optionsInRow, hopt] at hb
    exact hsorted b hb
  · rw [optionsInRow, hopt] at hb
    dsimp only at hb
    split at hb
    · simp only [mergeRow, List.mem_map] at hb
      obtain ⟨g, hg, rfl⟩ := hb
      simp only [averageGroup, Option.getD_some]
      refine div_nonneg (List.sum_nonneg ?_) (Nat.cast_nonneg _)
      intro y hy
      simp only [List.mem_map] at hy
      obtain ⟨b', hb', rfl⟩ := hy
      exact hsorted b' (mem_of_mem_mergeGroups hg hb')
    · exact hsorted b hb

/-- A nonempty row yields a nonempty score list: the positional merge (only
taken for a nonzero expected count) yields that many scores, and otherwise
the x-sorted row keeps its length. -/
theorem scores_length_pos (cfg : Config) (qi : ℕ) (row : List Bubble)
    (h : row ≠ []) : 0 < (processRow cfg qi row).scores.length := by
  have hlen : (sortByX row).length = row.length :=
    List.length_insertionSort _ _
  have hrow : 0 < row.length := List.length_pos.mpr h
  simp only [processRow, List.length_map, optionsInRow]
  rcases hopt : cfg.expectedOptions with _ | e
  · dsimp only
    omega
  · dsimp only
    split
    · next hcond =>
        simp only [mergeRow, mergeGroups, List.length_map, List.length_range]
        omega
    · omega

/-- Comparison by x coordinate is total. -/
instance : IsTotal Bubble (fun a b => a.x ≤ b.x) :=
  ⟨fun a b => le_total a.x b.x⟩

/-- Comparison by x coordinate is transitive. -/
instance : IsTrans Bubble (fun a b => a.x ≤ b.x) :=
  ⟨fun _ _ _ hab hbc => le_trans hab hbc⟩

/-- C1: answer selection sorts the row ascending by x, takes the scores off
the (merged or raw) fill ratios, and selects exactly the first index
attaining the maximum score provided that maximum reaches fillThreshold
(0.35 by default), reporting no answer otherwise; on equal maxima the lowest
option index wins (every earlier score is strictly smaller than the selected
one). -/
theorem C1_answer_selection (cfg : Config) (qi : ℕ) (row : List Bubble)
    (hrow : row ≠ [])
    (hnn : ∀ b ∈ row, 0 ≤ (Bubble.filledRatio b).getD 0) :
    (processRow cfg qi row).scores =
      (optionsInRow cfg (sortByX row)).map
        (fun b => (Bubble.filledRatio b).getD 0) ∧
    List.Sorted (fun a b : Bubble => a.x ≤ b.x) (sortByX row) ∧
    (∀ i : ℤ, (processRow cfg qi row).selected = some i →
      ∃ k : ℕ, ∃ hk : k < (processRow cfg qi row).scores.length,
        i = (k : ℤ) ∧
        cfg.fillThreshold ≤ (processRow cfg qi row).scores[k] ∧
        (∀ x ∈ (processRow cfg qi row).scores,
          x ≤ (processRow cfg qi row).scores[k]) ∧
        ∀ m (hm : m < k),
          (processRow cfg qi row).scores[m] <
            (processRow cfg qi row).scores[k]) ∧
    ((processRow cfg qi row).selected = none →
      ∀ x ∈ (processRow cfg qi row).scores, x < cfg.fillThreshold) := by
  refine ⟨rfl, List.sorted_insertionSort _ _, ?_⟩
  have hsel : (processRow cfg qi row).selected =
      (if cfg.fillThreshold ≤
          (argmaxLoop ((processRow cfg qi row).scores)).2
       then some (argmaxLoop ((processRow cfg qi row).scores)).1
       else none) := rfl
  have hpos := scores_length_pos cfg qi row hrow
  rcases argmaxLoop_char ((processRow cfg qi row).scores)
      (scores_nonneg cfg qi row hnn) with ⟨hemp, _⟩ |
    ⟨k, hk, hloop, hub, hbef⟩
  · rw [hemp] at hpos
    simp at hpos
  · rw [hloop] at hsel
    constructor
    · intro i hi
      rw [hsel] at hi
      by_cases hthr :
          cfg.fillThreshold ≤ (processRow cfg qi row).scores[k]
      · rw [if_pos hthr] at hi
        exact ⟨k, hk, (Option.some_injective _ hi).symm, hthr, hub, hbef⟩
      · rw [if_neg hthr] at hi
        exact absurd hi (by simp)
    · intro hnone x hx
      rw [hsel] at hnone
      by_cases hthr :
          cfg.fillThreshold ≤ (processRow cfg qi row).scores[k]
      · rw [if_pos hthr] at hnone
        exact absurd hnone (by simp)
      · exact lt_of_le_of_lt (hub x hx) (not_le.mp hthr)

/-- Concrete classified bubble with fill ratio 0.8. -/
def bW1 : Bubble := ⟨10, 50, 10, 0, some (4/5), some true⟩

/-- Concrete classified bubble with fill ratio 0.3. -/
def bW2 : Bubble := ⟨20, 50, 10, 1, some (3/10), some false⟩

/-- C1 instantiated on a concrete two-bubble row. -/
theorem C1_answer_selection_witness :
    ([bW1, bW2] : List Bubble) ≠ [] ∧
    (∀ b ∈ [bW1, bW2], 0 ≤ (Bubble.filledRatio b).getD 0) ∧
    List.Sorted (fun a b : Bubble => a.x ≤ b.x) (sortByX [bW1, bW2]) :=
  ⟨by simp, by norm_num [bW1, bW2],
    (C1_answer_selection defaultConfig 0 [bW1, bW2] (by simp)
      (by norm_num [bW1, bW2])).2.1⟩

/-- The scores of a processed row do not depend on the fill threshold: the
threshold feeds only the isFilled flags and the final gating, never the
ratios the scores are read from. -/
theorem processRow_scores_setThreshold (cfg : Config) (t : ℚ) (qi : ℕ)
    (row : List Bubble) :
    (processRow (setThreshold cfg t) qi row).scores =
      (processRow cfg qi row).scores := by
  simp only [processRow, optionsInRow, setThreshold]
  rcases hopt : cfg.expectedOptions with _ | e
  · rfl
  · dsimp only
    by_cases hc : e ≠ 0 ∧ e < (sortByX row).length
    · rw [if_pos hc, if_pos hc, mergeRow, mergeRow, List.map_map,
        List.map_map]
      rfl
    · rw [if_neg hc, if_neg hc]

/-- C6: when a question has selected option i, so the maximum score reached
the threshold, re-running answer selection on the same classified bubbles
with any fill threshold strictly above that maximum score leaves the scores
unchanged and reports no answer. -/
theorem C6_threshold_monotone (cfg : Config) (qi : ℕ) (row : List Bubble)
    (i : ℤ) (t : ℚ)
    (_hsel : (processRow cfg qi row).selected = some i)
    (ht : (argmaxLoop ((processRow cfg qi row).scores)).2 < t) :
    (processRow (setThreshold cfg t) qi row).scores =
      (processRow cfg qi row).scores ∧
    (processRow (setThreshold cfg t) qi row).selected = none := by
  have hscores := processRow_scores_setThreshold cfg t qi row
  refine ⟨hscores, ?_⟩
  have hsel' : (processRow (setThreshold cfg t) qi row).selected =
      (if t ≤
          (argmaxLoop ((processRow (setThreshold cfg t) qi row).scores)).2
       then some
          (argmaxLoop ((processRow (setThreshold cfg t) qi row).scores)).1
       else none) := rfl
  rw [hsel', hscores, if_neg (not_le.mpr ht)]

/-- C6 instantiated: on the concrete two-bubble row the selection picks
option 0 with maximum score 0.8, and threshold 1 deselects it without
changing the scores. -/
theorem C6_threshold_monotone_witness :
    (processRow defaultConfig 0 [bW1, bW2]).selected = some 0 ∧
    (argmaxLoop ((processRow defaultConfig 0 [bW1, bW2]).scores)).2 < 1 ∧
    (processRow (setThreshold defaultConfig 1) 0 [bW1, bW2]).selected =
      none := by
  have h1 : (processRow defaultConfig 0 [bW1, bW2]).selected = some 0 := by
    norm_num [processRow, sortByX, optionsInRow, argmaxLoop, argmaxStep,
      defaultConfig, bW1, bW2, List.enum, List.enumFrom]
  have h2 : (argmaxLoop ((processRow defaultConfig 0 [bW1, bW2]).scores)).2
      < 1 := by
    norm_num [processRow, sortByX, optionsInRow, argmaxLoop, argmaxStep,
      defaultConfig, bW1, bW2, List.enum, List.enumFrom]
  exact ⟨h1, h2,
    (C6_threshold_monotone defaultConfig 0 [bW1, bW2] 0 1 h1 h2).2⟩

/-- Fold invariant of the clustering scan: rows stay nonempty and their
members keep any property that all scanned bubbles and all accumulated
members have. -/
theorem clusterGo_invariant (tol : ℚ) (Pb : Bubble → Prop) :
    ∀ (l : List Bubble) (rows : List (List Bubble)),
    (∀ r ∈ rows, r ≠ [] ∧ ∀ b ∈ r, Pb b) → (∀ b ∈ l, Pb b) →
    ∀ r ∈ l.foldl (addToRows tol) rows, r ≠ [] ∧ ∀ b ∈ r, Pb b := by
  intro l
  induction l with
  | nil => intro rows hrows _ r hr; exact hrows r hr
  | cons a t ih =>
    intro rows hrows hl
    rw [List.foldl_cons]
    have ha : Pb a := hl a (by simp)
    have ht : ∀ b ∈ t, Pb b := fun b hb => hl b (List.mem_cons_of_mem a hb)
    refine ih _ ?_ ht
    intro r hr
    have hsingle : r = [a] → r ≠ [] ∧ ∀ b ∈ r, Pb b := by
      intro he
      subst he
      refine ⟨by simp, ?_⟩
      intro b hb
      rw [List.mem_singleton] at hb
      rw [hb]
      exact ha
    by_cases hrows0 : rows = []
    · rw [addToRows, if_pos hrows0] at hr
      rw [List.mem_singleton] at hr
      exact hsingle hr
    · rw [addToRows, if_neg hrows0] at hr
      dsimp only at hr
      have hlastmem : rows.getLastD [] ∈ rows := by
        rw [List.getLastD_eq_getLast?, List.getLast?_eq_getLast rows hrows0,
          Option.getD_some]
        exact List.getLast_mem hrows0
      set lastRow := rows.getLastD [] with hlr
      split at hr
      · rcases List.mem_append.mp hr with hr | hr
        · exact hrows r (List.mem_of_mem_dropLast hr)
        · rw [List.mem_singleton] at hr
          subst hr
          refine ⟨by simp, ?_⟩
          intro b hb
          rcases List.mem_append.mp hb with hb | hb
          · exact (hrows lastRow hlastmem).2 b hb
          · rw [List.mem_singleton] at hb
            rw [hb]
            exact ha
      · rcases List.mem_append.mp hr with hr | hr
        · exact hrows r hr
        · rw [List.mem_singleton] at hr
          exact hsingle hr

/-- Every row produced by the clustering scan is nonempty, with all members
drawn from the scanned bubbles. -/
theorem clusterRows_invariant (tol : ℚ) (bs : List Bubble) :
    ∀ r ∈ clusterRows tol bs, r ≠ [] ∧ ∀ b ∈ r, b ∈ bs :=
  clusterGo_invariant tol (· ∈ bs) bs [] (by simp) (fun _ hb => hb)

/-- Fill classification yields a nonnegative ratio whenever the fill
primitive never reports more white pixels than sampled pixels. -/
theorem classifyBubble_ratio_nonneg (measure : ℚ → ℚ → ℚ → ℕ × ℕ) (thr : ℚ)
    (b : Bubble) (hm : (measure b.x b.y b.r).2 ≤ (measure b.x b.y b.r).1) :
    0 ≤ ((classifyBubble measure thr b).filledRatio).getD 0 := by
  simp only [classifyBubble, Option.getD_some]
  split
  · refine div_nonneg (sub_nonneg.mpr ?_) (Nat.cast_nonneg _)
    exact_mod_cast hm
  · exact le_refl 0

/-- C10: every QuestionResult of an analysis has a nonempty score list, and
its selected field is either none or a genuine nonnegative index into the
scores: the sentinel -1 of the argmax loop never escapes.  The hypothesis
states that the fill primitive never counts more white pixels than sampled
pixels, which holds for the OpenCV counting the source uses, every white
pixel of the thresholded masked image lying inside the sampling circle. -/
theorem C10_selected_in_range (Img Gray : Type) (P : Primitives Img Gray)
    (img : Img) (cfg : Config)
    (hm : ∀ (g : Gray) (x y r : ℚ),
      (P.fillMeasure g x y r).2 ≤ (P.fillMeasure g x y r).1) :
    ∀ q ∈ (analyze P img cfg).questions,
      q.scores ≠ [] ∧
      (q.selected = none ∨
        ∃ k : ℕ, q.selected = some (k : ℤ) ∧ k < q.scores.length) := by
  intro q hq
  simp only [analyze, analyzeFromGray, buildQuestions, List.mem_map] at hq
  obtain ⟨p, hp, hq⟩ := hq
  subst hq
  obtain ⟨hne, hmem⟩ :=
    clusterRows_invariant _ _ p.2 (snd_mem_of_mem_enum hp)
  have hnn : ∀ b ∈ p.2, 0 ≤ (Bubble.filledRatio b).getD 0 := by
    intro b hb
    have hb2 := hmem b hb
    have hb3 : b ∈ (extractBubbles cfg
        (P.contoursOf (usedGray P img))).map
          (classifyBubble (P.fillMeasure (usedGray P img))
            cfg.fillThreshold) := by
      simpa [sortByYX, List.mem_insertionSort] using hb2
    obtain ⟨b0, _, rfl⟩ := List.mem_map.mp hb3
    exact classifyBubble_ratio_nonneg _ _ _ (hm _ _ _ _)
  have hpos := scores_length_pos cfg p.1 p.2 hne
  refine ⟨List.length_pos.mp hpos, ?_⟩
  have hsel : (processRow cfg p.1 p.2).selected =
      (if cfg.fillThreshold ≤
          (argmaxLoop ((processRow cfg p.1 p.2).scores)).2
       then some (argmaxLoop ((processRow cfg p.1 p.2).scores)).1
       else none) := rfl
  rcases argmaxLoop_char _ (scores_nonneg cfg p.1 p.2 hnn) with
    ⟨hemp, _⟩ | ⟨k, hk, hloop, _, _⟩
  · rw [hemp] at hpos
    simp at hpos
  · rw [hsel, hloop]
    by_cases hthr :
        cfg.fillThreshold ≤ (processRow cfg p.1 p.2).scores[k]
    · right
      exact ⟨k, by rw [if_pos hthr], hk⟩
    · left
      rw [if_neg hthr]

/-- C10 instantiated on the concrete three-bubble analysis. -/
theorem C10_selected_in_range_witness :
    (∀ (g : Unit) (x y r : ℚ),
      (threeBubblePrims.fillMeasure g x y r).2 ≤
        (threeBubblePrims.fillMeasure g x y r).1) ∧
    ∀ q ∈ (analyze threeBubblePrims () fourOptionConfig).questions,
      q.scores ≠ [] ∧
      (q.selected = none ∨
        ∃ k : ℕ, q.selected = some (k : ℤ) ∧ k < q.scores.length) :=
  ⟨fun _ _ _ _ => by norm_num [threeBubblePrims],
    C10_selected_in_range Unit Unit threeBubblePrims () fourOptionConfig
      (fun _ _ _ _ => by norm_num [threeBubblePrims])⟩

/-- Invariant of the relaxed retry fold: the accumulator is a prefix of the
result, and every bubble the fold appends (any index at or past the
accumulator length) comes from an indexed contour passing the relaxed
guards and has its center not nearby (squared distance at least
max(5, radius 0.6) squared) ANY entry accepted before it — the accepted
list at the moment a bubble is appended is exactly the entries preceding it
in the result. -/
theorem relaxedFold_spec (cfg : Config) :
    ∀ (l : List (ℕ × Contour)) (acc : List Bubble),
    acc <+: l.foldl (relaxedStep cfg) acc ∧
    ∀ j (hj : j < (l.foldl (relaxedStep cfg) acc).length),
      acc.length ≤ j →
      (∃ p ∈ l, acceptRelaxed cfg p.2 ∧
        (l.foldl (relaxedStep cfg) acc)[j] = toBubble p.1 p.2) ∧
      ∀ i (hi : i < j),
        ¬ isNearby ((l.foldl (relaxedStep cfg) acc)[i])
          ((l.foldl (relaxedStep cfg) acc)[j]).x
          ((l.foldl (relaxedStep cfg) acc)[j]).y
          ((l.foldl (relaxedStep cfg) acc)[j]).r := by
  intro l
  induction l with
  | nil =>
    intro acc
    refine ⟨List.prefix_refl _, ?_⟩
    intro j hj hge
    simp only [List.foldl_nil] at hj
    omega
  | cons p t ih =>
    intro acc
    rw [List.foldl_cons]
    obtain ⟨hpre, hspec⟩ := ih (relaxedStep cfg acc p)
    have hstep : (relaxedStep cfg acc p = acc) ∨
        (acceptRelaxed cfg p.2 ∧
         relaxedStep cfg acc p = acc ++ [toBubble p.1 p.2] ∧
         ∀ a ∈ acc, ¬ isNearby a p.2.cx p.2.cy p.2.radius) := by
      rw [relaxedStep]
      by_cases h1 : acceptRelaxed cfg p.2
      · rw [if_pos h1]
        by_cases h2 : ∃ b ∈ acc, isNearby b p.2.cx p.2.cy p.2.radius
        · rw [if_pos h2]
          exact Or.inl rfl
        · rw [if_neg h2]
          push_neg at h2
          exact Or.inr ⟨h1, rfl, h2⟩
      · rw [if_neg h1]
        exact Or.inl rfl
    have hpre0 : acc <+: relaxedStep cfg acc p := by
      rcases hstep with heq | ⟨_, heq, _⟩
      · rw [heq]
      · rw [heq]
        exact ⟨[toBubble p.1 p.2], rfl⟩
    refine ⟨hpre0.trans hpre, ?_⟩
    intro j hj hge
    rcases hstep with heq | ⟨hac, heq, hnear⟩
    · rw [heq] at hspec hj
      simp only [heq]
      obtain ⟨⟨p2, hp2, hac2, hbeq⟩, hnb⟩ := hspec j hj hge
      exact ⟨⟨p2, List.mem_cons_of_mem p hp2, hac2, hbeq⟩, hnb⟩
    · rw [heq] at hspec hpre hj
      simp only [heq]
      by_cases hcase : acc.length + 1 ≤ j
      · obtain ⟨⟨p2, hp2, hac2, hbeq⟩, hnb⟩ :=
          hspec j hj (by simpa using hcase)
        exact ⟨⟨p2, List.mem_cons_of_mem p hp2, hac2, hbeq⟩, hnb⟩
      · have hjeq : j = acc.length := by omega
        subst hjeq
        have hjlt : acc.length < (acc ++ [toBubble p.1 p.2]).length := by
          simp
        have hRj : (t.foldl (relaxedStep cfg)
            (acc ++ [toBubble p.1 p.2]))[acc.length] = toBubble p.1 p.2 := by
          rw [← hpre.getElem hjlt]
          simp
        refine ⟨⟨p, by simp, hac, hRj⟩, ?_⟩
        intro i hi
        have hilt : i < (acc ++ [toBubble p.1 p.2]).length := by
          simp
          omega
        have hRi : (t.foldl (relaxedStep cfg)
            (acc ++ [toBubble p.1 p.2]))[i] = acc[i] := by
          rw [← hpre.getElem hilt]
          exact List.getElem_append_left hi
        rw [hRj, hRi]
        have := hnear acc[i] (List.getElem_mem hi)
        simpa [toBubble] using this

/-- C4 amended: the relaxed pass runs exactly when the first pass accepted
fewer than 10 candidates and at most once per call (the extraction is one
first pass plus at most one fold over the contours); it widens the area
bounds to [0.6 minArea, 2 maxArea] and lowers the circularity floor to 0.28,
and it appends a new candidate only if its center is at distance AT LEAST
max(5, radius 0.6) pixels from EVERY already-accepted candidate — every
entry preceding it in the result, first-pass candidates and earlier relaxed
additions alike — though not strictly farther, see the counterexample;
since that distance is positive, no first-pass candidate is duplicated, the
first-pass list surviving as a prefix of the result. -/
theorem C4_relaxed_retry (cfg : Config) (contours : List Contour) :
    (¬ (firstPass cfg contours).length < 10 →
      extractBubbles cfg contours = firstPass cfg contours) ∧
    ((firstPass cfg contours).length < 10 →
      firstPass cfg contours <+: extractBubbles cfg contours ∧
      ∀ j (hj : j < (extractBubbles cfg contours).length),
        (firstPass cfg contours).length ≤ j →
        (∃ p ∈ contours.enum, acceptRelaxed cfg p.2 ∧
          (extractBubbles cfg contours)[j] = toBubble p.1 p.2) ∧
        ∀ i (hi : i < j),
          ¬ isNearby ((extractBubbles cfg contours)[i])
            ((extractBubbles cfg contours)[j]).x
            ((extractBubbles cfg contours)[j]).y
            ((extractBubbles cfg contours)[j]).r) := by
  have hdef : extractBubbles cfg contours =
      if (firstPass cfg contours).length < 10
      then contours.enum.foldl (relaxedStep cfg) (firstPass cfg contours)
      else firstPass cfg contours := rfl
  constructor
  · intro h
    rw [hdef, if_neg h]
  · intro h
    rw [hdef, if_pos h]
    exact relaxedFold_spec cfg contours.enum (firstPass cfg contours)

/-- Contour passing the first pass: circularity about 1.0, centered at the
origin with radius 5. -/
def contourA : Contour := ⟨200, 50, 0, 0, 5⟩

/-- Contour with circularity about 0.284 (relaxed pass only), centered at
(5, 0) with radius 5, hence dedup threshold max(5, 3) = 5 and center
distance from contourA exactly 5. -/
def contourB : Contour := ⟨200, 94, 5, 0, 5⟩

/-- C4 counterexample: the relaxed pass ADDS the candidate of contourB even
though its center is exactly max(5, radius 0.6) = 5 pixels from the
already-accepted first-pass candidate, not strictly farther, so the claimed
strict "farther than" dedup rule does not hold of the code, which only
rejects strictly nearer candidates. -/
theorem C4_counterexample :
    firstPass defaultConfig [contourA, contourB] = [toBubble 0 contourA] ∧
    extractBubbles defaultConfig [contourA, contourB] =
      [toBubble 0 contourA, toBubble 1 contourB] ∧
    distSq (toBubble 0 contourA).x (toBubble 0 contourA).y
        (toBubble 1 contourB).x (toBubble 1 contourB).y =
      (max 5 ((toBubble 1 contourB).r * (6/10)))^2 := by
  refine ⟨?_, ?_, by norm_num [toBubble, distSq, contourA, contourB]⟩ <;>
    norm_num [firstPass, extractBubbles, relaxedStep, acceptFirst,
      acceptRelaxed, circularity, jsPI, isNearby, distSq, toBubble,
      defaultConfig, contourA, contourB, List.enum, List.enumFrom,
      List.filter]

/-- C4 amended claim instantiated on the concrete contour pair. -/
theorem C4_relaxed_retry_witness :
    (firstPass defaultConfig [contourA, contourB]).length < 10 ∧
    firstPass defaultConfig [contourA, contourB] <+:
      extractBubbles defaultConfig [contourA, contourB] := by
  have h : (firstPass defaultConfig [contourA, contourB]).length < 10 := by
    norm_num [firstPass, acceptFirst, circularity, jsPI, toBubble,
      defaultConfig, contourA, contourB, List.enum, List.enumFrom,
      List.filter]
  exact ⟨h, ((C4_relaxed_retry defaultConfig [contourA, contourB]).2 h).1⟩

/-- C5: the pipeline, with its image-processing primitives modelled as fixed
deterministic functions, is a deterministic function of image and
configuration: two calls of analyze on the same input return identical
results, equal question sequences and equal per-bubble fill ratios; the
embedding is a pure function, with no randomness or hidden state anywhere in
the translated logic. -/
theorem C5_deterministic (Img Gray : Type) (P : Primitives Img Gray)
    (img : Img) (cfg : Config) :
    analyze P img cfg = analyze P img cfg ∧
    (analyze P img cfg).questions = (analyze P img cfg).questions ∧
    (analyze P img cfg).bubbles.map Bubble.filledRatio =
      (analyze P img cfg).bubbles.map Bubble.filledRatio :=
  ⟨rfl, rfl, rfl⟩

/-- C7: when no candidate survives either extraction pass the analysis still
returns normally (the embedded pipeline is a total function and this path
performs no failing operation), with empty bubbles and empty questions. -/
theorem C7_empty_result (Img Gray : Type) (P : Primitives Img Gray)
    (img : Img) (cfg : Config)
    (h : extractBubbles cfg (P.contoursOf (usedGray P img)) = []) :
    analyze P img cfg = ⟨[], []⟩ := by
  show analyzeFromGray P (P.height img) (usedGray P img) cfg = ⟨[], []⟩
  simp only [analyzeFromGray, h]
  rfl

/-- Primitives of a degenerate image yielding no contours at all. -/
def emptyPrims : Primitives Unit Unit :=
  ⟨fun _ => (), fun _ => none, fun _ => 0, fun _ => [],
   fun _ _ _ _ => (0, 0)⟩

/-- C7 instantiated: the contour-free analysis returns the empty result. -/
theorem C7_empty_result_witness :
    extractBubbles defaultConfig
      (emptyPrims.contoursOf (usedGray emptyPrims ())) = [] ∧
    analyze emptyPrims () defaultConfig = ⟨[], []⟩ :=
  ⟨rfl, C7_empty_result Unit Unit emptyPrims () defaultConfig rfl⟩

/-- C8: when the CLAHE enhancement is unavailable or fails (the clahe
primitive returns none, modelling the caught exception of the source), the
analysis silently continues and returns exactly the result computed from the
unenhanced grayscale: the downstream stages all still run. -/
theorem C8_clahe_fallback (Img Gray : Type) (P : Primitives Img Gray)
    (img : Img) (cfg : Config)
    (h : P.clahe (P.grayscale img) = none) :
    analyze P img cfg =
      analyzeFromGray P (P.height img) (P.grayscale img) cfg := by
  simp only [analyze, usedGray, h]

/-- C8 instantiated: the clahe-less primitives fall back to the plain
grayscale pipeline. -/
theorem C8_clahe_fallback_witness :
    emptyPrims.clahe (emptyPrims.grayscale ()) = none ∧
    analyze emptyPrims () defaultConfig =
      analyzeFromGray emptyPrims (emptyPrims.height ())
        (emptyPrims.grayscale ()) defaultConfig :=
  ⟨rfl, C8_clahe_fallback Unit Unit emptyPrims () defaultConfig rfl⟩

/-- C9: for a row longer than the expected option count e > 0, the
positional assignment i to floor(i e / n) is surjective onto the e groups,
so every group of the positional merge is nonempty and each averaged value
divides by a nonzero group size. -/
theorem C9_partition_surjective (e : ℕ) (row : List Bubble)
    (he : 0 < e) (hlen : e < row.length) :
    (∀ g, g < e → ∃ i, i < row.length ∧ groupIdx i e row.length = g) ∧
    ∀ gl ∈ mergeGroups e row, gl ≠ [] := by
  have key : ∀ g, g < e →
      ∃ i, i < row.length ∧ groupIdx i e row.length = g := by
    intro g hg
    refine ⟨(g * row.length + e - 1) / e, ?_⟩
    set n := row.length with hn
    set q := (g * n + e - 1) / e with hq
    have hdm : e * q + (g * n + e - 1) % e = g * n + e - 1 :=
      Nat.div_add_mod (g * n + e - 1) e
    have hrlt : (g * n + e - 1) % e < e := Nat.mod_lt _ he
    have h1 : g * n ≤ e * q := by omega
    have h2 : e * q < (g + 1) * n := by
      have ha : e * q ≤ g * n + e - 1 := by omega
      have hb : g * n + e - 1 < g * n + n := by omega
      have hc : g * n + n = (g + 1) * n := by ring
      omega
    have hqn : q < n := by
      have hge : (g + 1) * n ≤ e * n := Nat.mul_le_mul_right n (by omega)
      have hlt : e * q < e * n := lt_of_lt_of_le h2 hge
      exact Nat.lt_of_mul_lt_mul_left hlt
    refine ⟨hqn, ?_⟩
    rw [groupIdx, Nat.mul_comm]
    exact Nat.div_eq_of_lt_le h1 h2
  refine ⟨key, ?_⟩
  intro gl hgl
  simp only [mergeGroups, List.mem_map, List.mem_range] at hgl
  obtain ⟨g, hg, rfl⟩ := hgl
  obtain ⟨i, hi, hgi⟩ := key g hg
  have hmem : ((i : ℕ), row[i]) ∈ row.enum := by
    rw [← List.getElem_enum]
    exact List.getElem_mem (by simpa [List.enum_length] using hi)
  have hfil : ((i : ℕ), row[i]) ∈
      row.enum.filter fun p => groupIdx p.1 e row.length == g := by
    rw [List.mem_filter]
    exact ⟨hmem, by simpa using hgi⟩
  exact List.ne_nil_of_mem (List.mem_map_of_mem Prod.snd hfil)

/-- C9 instantiated: merging a five-bubble row into four groups leaves every
group nonempty. -/
theorem C9_partition_surjective_witness :
    (0 : ℕ) < 4 ∧
    (4 : ℕ) < ([b100, b109, b111, bW1, bW2] : List Bubble).length ∧
    ∀ gl ∈ mergeGroups 4 [b100, b109, b111, bW1, bW2], gl ≠ [] :=
  ⟨by norm_num, by norm_num,
    (C9_partition_surjective 4 [b100, b109, b111, bW1, bW2] (by norm_num)
      (by norm_num)).2⟩

end OMR
